import Mathlib

/-!
Verification of `sway-session.py`: save and restore of a Sway session.

The development shallowly embeds the program's logic:

* `SceneNode` models a node of the compositor scene tree (`swaymsg -t get_tree`
  JSON): a type tag, optional name, optional pid, optional `app_id`, the
  optional `class` field of `window_properties`, optional marks, the ordered
  tiling children (`nodes`) and the floating children (`floating_nodes`).
* `collect_windows` embeds the recursive `_walk` of `collect_windows`:
  context threading of the current output/workspace name, emission of a
  window record for nodes with a truthy `pid` and type `"con"`, and descent
  only through the `nodes` list.  The process-inspection side effect
  (`read_cmdline(pid)`) is passed in as an oracle `cl : Nat → Option String`.
* `read_cmdline` embeds the best-effort `/proc/<pid>/cmdline` reader; the raw
  read result is a parameter (`Except Unit (List Nat)`, bytes or a read
  fault) and UTF-8 decoding with replacement is abstracted as a total
  function parameter, since no claim depends on the decoder itself.
* `save_workspaces` embeds the workspace projection of `save_state`.
* `workspaceTargets`, `phase1Cmds`, `phase2Cmds`, `restorePlan`, `runCmds`
  and `restore_state` embed `restore_state`: the Python dict comprehension
  over workspace records (insertion order, last value wins, falsy names
  dropped), the two command-issuing phases, and abort on the first failing
  `swaymsg` call (`subprocess.check_call` raising).

Python truthiness is embedded explicitly: `truthyPid` (a pid of `0` or a
missing pid is falsy), `truthyStr` (a missing or empty string is falsy).
-/

/-- A node of the compositor scene tree, as read by the script via `.get`
with absent keys defaulting to `None`. -/
inductive SceneNode : Type where
  | mk (ty : Option String) (name : Option String) (pid : Option Nat)
       (app_id : Option String) (wm_class : Option String)
       (marks : Option (List String))
       (nodes : List SceneNode) (floating_nodes : List SceneNode) : SceneNode

def SceneNode.ty : SceneNode → Option String
  | .mk t _ _ _ _ _ _ _ => t

def SceneNode.name : SceneNode → Option String
  | .mk _ nm _ _ _ _ _ _ => nm

def SceneNode.pid : SceneNode → Option Nat
  | .mk _ _ p _ _ _ _ _ => p

def SceneNode.nodes : SceneNode → List SceneNode
  | .mk _ _ _ _ _ _ ns _ => ns

def SceneNode.floating_nodes : SceneNode → List SceneNode
  | .mk _ _ _ _ _ _ _ fl => fl

/-- One entry of the `windows` list of the saved snapshot. -/
structure WindowRecord where
  workspace : Option String
  output : Option String
  pid : Option Nat
  app_id : Option String
  wm_class : Option String
  title : Option String
  cmd : Option String
  marks : List String
deriving DecidableEq

/-- Python truthiness of the optional integer `node.get("pid")`:
`None` and `0` are falsy. -/
def truthyPid : Option Nat → Bool
  | some p => p ≠ 0
  | none => false

/-- Python truthiness of an optional string: `None` and `""` are falsy. -/
def truthyStr : Option String → Bool
  | some s => s ≠ ""
  | none => false

mutual

/-- The inner `_walk(node, output, workspace)` of `collect_windows`:
update the context when the node's type is `"output"`/`"workspace"`, emit a
record when the node has a truthy pid and type `"con"`, then recurse into
the `nodes` children with the updated context. -/
def walk (cl : Nat → Option String) : SceneNode → Option String → Option String → List WindowRecord
  | .mk t nm pid app cls mks ns _fl, output, workspace =>
    let curOut := if t = some "output" then nm else output
    let curWs := if t = some "workspace" then nm else workspace
    (if truthyPid pid ∧ t = some "con" then
      [{ workspace := curWs, output := curOut, pid := pid, app_id := app,
         wm_class := cls, title := nm, cmd := pid.bind cl, marks := mks.getD [] }]
     else []) ++ walkList cl ns curOut curWs

/-- The `for child in node.get("nodes", [])` loop of `_walk`. -/
def walkList (cl : Nat → Option String) : List SceneNode → Option String → Option String → List WindowRecord
  | [], _, _ => []
  | x :: xs, o, w => walk cl x o w ++ walkList cl xs o w

end

/-- `collect_windows(tree)`: run the walker from the root with both context
fields unset. -/
def collect_windows (cl : Nat → Option String) (tree : SceneNode) : List WindowRecord :=
  walk cl tree none none

/-- The name recorded by the nearest (deepest) node of kind `k` on a
root-first path of scene nodes, `none` when the path has no such node. -/
def nearestName (k : String) (path : List SceneNode) : Option String :=
  path.foldl (fun acc n => if n.ty = some k then n.name else acc) none

mutual

/-- Specification-side walker for claim C1: instead of threading context, it
recomputes, at every node, the nearest enclosing `output`/`workspace` name
from the full root-first path (ancestors plus the node itself). -/
def specWalk (cl : Nat → Option String) : SceneNode → List SceneNode → List WindowRecord
  | .mk t nm pid app cls mks ns fl, anc =>
    (if truthyPid pid ∧ t = some "con" then
      [{ workspace := nearestName "workspace" (anc ++ [.mk t nm pid app cls mks ns fl]),
         output := nearestName "output" (anc ++ [.mk t nm pid app cls mks ns fl]),
         pid := pid, app_id := app, wm_class := cls, title := nm,
         cmd := pid.bind cl, marks := mks.getD [] }]
     else []) ++ specWalkList cl ns (anc ++ [.mk t nm pid app cls mks ns fl])

def specWalkList (cl : Nat → Option String) : List SceneNode → List SceneNode → List WindowRecord
  | [], _ => []
  | x :: xs, p => specWalk cl x p ++ specWalkList cl xs p

end

/-- Path-based (nearest-enclosing-ancestor) collection, the spec's wording
of `collect_windows`. -/
def specCollect (cl : Nat → Option String) (tree : SceneNode) : List WindowRecord :=
  specWalk cl tree []

lemma nearestName_snoc (k : String) (anc : List SceneNode) (n : SceneNode) :
    nearestName k (anc ++ [n]) = if n.ty = some k then n.name else nearestName k anc := by
  unfold nearestName
  rw [List.foldl_append]
  rfl

mutual

theorem walk_eq_specWalk (cl : Nat → Option String) :
    ∀ (n : SceneNode) (anc : List SceneNode),
      walk cl n (nearestName "output" anc) (nearestName "workspace" anc) = specWalk cl n anc
  | .mk t nm pid app cls mks ns fl, anc => by
    rw [walk, specWalk]
    have hout : nearestName "output" (anc ++ [.mk t nm pid app cls mks ns fl])
        = if t = some "output" then nm else nearestName "output" anc := by
      rw [nearestName_snoc]; rfl
    have hws : nearestName "workspace" (anc ++ [.mk t nm pid app cls mks ns fl])
        = if t = some "workspace" then nm else nearestName "workspace" anc := by
      rw [nearestName_snoc]; rfl
    rw [hout, hws]
    have hlist := walkList_eq_specWalkList cl ns (anc ++ [.mk t nm pid app cls mks ns fl])
    rw [hout, hws] at hlist
    rw [hlist]

theorem walkList_eq_specWalkList (cl : Nat → Option String) :
    ∀ (ns : List SceneNode) (p : List SceneNode),
      walkList cl ns (nearestName "output" p) (nearestName "workspace" p) = specWalkList cl ns p
  | [], _ => by rw [walkList, specWalkList]
  | x :: xs, p => by
    rw [walkList, specWalkList, walk_eq_specWalk cl x p, walkList_eq_specWalkList cl xs p]

end

/-- Claim C1: every `WindowRecord` emitted by `collect_windows` carries, as
its `output` and `workspace` fields, the name of the nearest enclosing node
of kind `output` (resp. `workspace`) on the path from the root, `none` when
no such enclosing node exists; and because the context is recomputed per
path in the specification walker, context from one subtree cannot leak into
a sibling subtree.  Formally: the threaded-context traversal equals the
path-based nearest-enclosing-ancestor traversal on every tree. -/
theorem collect_windows_nearest_enclosing (cl : Nat → Option String) (tree : SceneNode) :
    collect_windows cl tree = specCollect cl tree := by
  have h := walk_eq_specWalk cl tree []
  simpa [collect_windows, specCollect, nearestName] using h

mutual

/-- Number of nodes, at any depth of the tiling tree, whose pid is truthy
and whose type is `"con"` — the emission condition of `_walk`. -/
def countConPid : SceneNode → Nat
  | .mk t _ pid _ _ _ ns _ =>
    (if truthyPid pid ∧ t = some "con" then 1 else 0) + countConPidList ns

def countConPidList : List SceneNode → Nat
  | [] => 0
  | x :: xs => countConPid x + countConPidList xs

end

mutual

/-- Worded from the claim, for comparison with the code: number of leaf
nodes (no tiling children) of the tiling tree carrying a non-null process
identifier. -/
def countLeafPid : SceneNode → Nat
  | .mk _ _ pid _ _ _ ns _ =>
    (if ns.isEmpty ∧ pid ≠ none then 1 else 0) + countLeafPidList ns

def countLeafPidList : List SceneNode → Nat
  | [] => 0
  | x :: xs => countLeafPid x + countLeafPidList xs

end

mutual

theorem walk_length (cl : Nat → Option String) :
    ∀ (n : SceneNode) (o w : Option String), (walk cl n o w).length = countConPid n
  | .mk t nm pid app cls mks ns fl, o, w => by
    rw [walk, countConPid, List.length_append]
    rw [walkList_length cl ns]
    by_cases h : truthyPid pid ∧ t = some "con" <;> simp [h]

theorem walkList_length (cl : Nat → Option String) :
    ∀ (ns : List SceneNode) (o w : Option String), (walkList cl ns o w).length = countConPidList ns
  | [], _, _ => by simp [walkList, countConPidList]
  | x :: xs, o, w => by
    rw [walkList, countConPidList, List.length_append,
      walk_length cl x, walkList_length cl xs]

end

/-- Claim C2 counterexample: a one-node tree whose root is a leaf of kind
`workspace` carrying the non-null pid `7`.  It has one leaf with a non-null
process identifier, yet `collect_windows` emits no record, because emission
additionally requires the node type to be `"con"` (and the pid to be
truthy).  So the emitted count does not equal the leaf-with-pid count. -/
theorem collect_windows_leaf_count_cex :
    (collect_windows (fun _ => none)
        (.mk (some "workspace") (some "ws") (some 7) none none none [] [])).length = 0
    ∧ countLeafPid (.mk (some "workspace") (some "ws") (some 7) none none none [] []) = 1 := by
  constructor <;> decide

/-- Claim C2 as amended: for every scene tree, the number of `WindowRecord`
entries produced by `collect_windows` equals the number of nodes, at any
nesting depth of the tiling tree, whose type is `"con"` and whose process
identifier is truthy (non-null and nonzero) — not the number of leaves with
a non-null pid. -/
theorem collect_windows_length_eq_conPid (cl : Nat → Option String) (tree : SceneNode) :
    (collect_windows cl tree).length = countConPid tree :=
  walk_length cl tree none none

mutual

/-- Delete every floating subtree of the scene tree. -/
def eraseFloating : SceneNode → SceneNode
  | .mk t nm pid app cls mks ns _fl =>
    .mk t nm pid app cls mks (eraseFloatingList ns) []

def eraseFloatingList : List SceneNode → List SceneNode
  | [] => []
  | x :: xs => eraseFloating x :: eraseFloatingList xs

end

mutual

theorem walk_eraseFloating (cl : Nat → Option String) :
    ∀ (n : SceneNode) (o w : Option String), walk cl (eraseFloating n) o w = walk cl n o w
  | .mk t nm pid app cls mks ns fl, o, w => by
    rw [eraseFloating, walk, walk]
    rw [walkList_eraseFloating cl ns]

theorem walkList_eraseFloating (cl : Nat → Option String) :
    ∀ (ns : List SceneNode) (o w : Option String),
      walkList cl (eraseFloatingList ns) o w = walkList cl ns o w
  | [], _, _ => by rw [eraseFloatingList]
  | x :: xs, o, w => by
    rw [eraseFloatingList, walkList, walkList,
      walk_eraseFloating cl x, walkList_eraseFloating cl xs]

end

/-- Claim C10: the traversal descends only through the ordered tiling
children (the `nodes` list); nodes reachable only through the floating list
are never visited and never produce a record.  Formally: deleting every
floating subtree leaves the result of `collect_windows` unchanged, for every
tree and every command-line oracle. -/
theorem collect_windows_ignores_floating (cl : Nat → Option String) (tree : SceneNode) :
    collect_windows cl (eraseFloating tree) = collect_windows cl tree :=
  walk_eraseFloating cl tree none none

/-- `content.split(b"\0")` of Python `bytes.split`: splitting on the NUL
byte, with empty chunks kept (so the empty content yields one empty chunk). -/
def splitNul : List Nat → List (List Nat)
  | [] => [[]]
  | b :: rest =>
    if b = 0 then [] :: splitNul rest
    else
      match splitNul rest with
      | [] => [[b]]
      | h :: t => (b :: h) :: t

/-- `read_cmdline(pid)`: the raw result of reading `/proc/<pid>/cmdline`
is passed in as `res` (`Except.error` for `FileNotFoundError`/`OSError`,
`Except.ok` for the bytes read); `dec` abstracts
`bytes.decode("utf-8", errors="replace")`, which is total.  Nonempty chunks
are decoded and space-joined; a read fault or an empty chunk list yields
`none`. -/
def read_cmdline (dec : List Nat → String) (res : Except Unit (List Nat)) : Option String :=
  match res with
  | .error _ => none
  | .ok content =>
    let parts := ((splitNul content).filter (fun p => p ≠ [])).map dec
    if parts.isEmpty then none else some (String.intercalate " " parts)

lemma splitNul_ne_nil (c : List Nat) : splitNul c ≠ [] := by
  induction c with
  | nil => simp [splitNul]
  | cons b rest ih =>
    rw [splitNul]
    by_cases hb : b = 0
    · simp [hb]
    · simp only [hb, if_false]
      cases h : splitNul rest <;> simp

lemma splitNul_filter_eq_nil_iff (c : List Nat) :
    (splitNul c).filter (fun p => p ≠ []) = [] ↔ ∀ b ∈ c, b = 0 := by
  induction c with
  | nil => simp [splitNul]
  | cons b rest ih =>
    rw [splitNul]
    by_cases hb : b = 0
    · simpa [hb] using ih
    · simp only [hb, if_false]
      cases h : splitNul rest with
      | nil => exact absurd h (splitNul_ne_nil rest)
      | cons hd tl =>
        simp [List.filter, hb]

/-- Claim C6: `read_cmdline` never propagates an error to its caller.  For
every decoder and every pid, a read fault (missing process, permission
denied, any `OSError`) yields `none`; a successful read yields `none`
exactly when the content consists solely of NUL separators (in particular
when it is empty, i.e. the argument list is null/empty), and otherwise
yields the space-joined decoded arguments. -/
theorem read_cmdline_total_spec (dec : List Nat → String) (e : Unit) (c : List Nat) :
    read_cmdline dec (Except.error e) = none
    ∧ (read_cmdline dec (Except.ok c) = none ↔ ∀ b ∈ c, b = 0)
    ∧ (¬ (∀ b ∈ c, b = 0) →
        read_cmdline dec (Except.ok c)
          = some (String.intercalate " " (((splitNul c).filter (fun p => p ≠ [])).map dec))) := by
  refine ⟨rfl, ?_, ?_⟩
  · rw [read_cmdline]
    simp only [List.isEmpty_iff, List.map_eq_nil_iff]
    rw [← splitNul_filter_eq_nil_iff]
    by_cases h : (splitNul c).filter (fun p => p ≠ []) = [] <;> simp [h]
  · intro h
    rw [← splitNul_filter_eq_nil_iff] at h
    have hne : (((splitNul c).filter (fun p => p ≠ [])).map dec).isEmpty = false := by
      rw [List.isEmpty_eq_false]
      intro hc
      exact h (List.map_eq_nil_iff.mp hc)
    simp only [read_cmdline, hne, Bool.false_eq_true, if_false]

/-- Witness for C6 at concrete inputs: a read fault returns `none`, and the
two-argument content `"a\0b\0"` (bytes 97, 0, 98, 0) under a decoder
mapping every chunk to `"x"` returns the space-join `"x x"`. -/
theorem read_cmdline_total_spec_witness :
    read_cmdline (fun _ => "x") (Except.error ()) = none
    ∧ read_cmdline (fun _ => "x") (Except.ok [97, 0, 98, 0]) = some "x x" := by
  have h := read_cmdline_total_spec (fun _ => "x") () [97, 0, 98, 0]
  refine ⟨h.1, ?_⟩
  have h2 := h.2.2 (by decide)
  rw [h2]
  rfl

/-- One entry of the `workspaces` list of the saved snapshot (and of the
JSON read back at restore): all fields read with `.get`, so optional. -/
structure WorkspaceRecord where
  name : Option String
  output : Option String
  focused : Option Bool
deriving DecidableEq

/-- One entry of the live `swaymsg -t get_workspaces` reply, as accessed by
`save_state` via `.get`. -/
structure WsRaw where
  name : Option String
  output : Option String
  focused : Option Bool
deriving DecidableEq

/-- The workspace projection of `save_state`: every entry of the live
workspace list is kept and projected onto name, output and focused flag. -/
def save_workspaces (l : List WsRaw) : List WorkspaceRecord :=
  l.map (fun w => { name := w.name, output := w.output, focused := w.focused })

/-- The persisted snapshot (the capture timestamp carries no logic and is
omitted). -/
structure Snapshot where
  workspaces : List WorkspaceRecord
  windows : List WindowRecord
deriving DecidableEq

/-- `save_state`: assemble the snapshot from the scene tree and the live
workspace list (file persistence is outside the embedded logic). -/
def save_state (cl : Nat → Option String) (tree : SceneNode) (wsRaw : List WsRaw) : Snapshot :=
  { workspaces := save_workspaces wsRaw, windows := collect_windows cl tree }

/-- A compositor command issued through `swaymsg`:
`workspace "<name>"`, `move workspace to output "<name>"`, or
`exec -- <cmd>`. -/
inductive Cmd : Type where
  | workspace (name : String)
  | moveToOutput (output : String)
  | exec (cmd : String)
deriving DecidableEq

/-- Insertion into a Python dict viewed as an ordered association list: an
existing key keeps its position and takes the new value, a new key is
appended at the end. -/
def insertDict (d : List (String × Option String)) (k : String) (v : Option String) :
    List (String × Option String) :=
  if d.any (fun p => p.1 = k) then d.map (fun p => if p.1 = k then (k, v) else p)
  else d ++ [(k, v)]

/-- The key under which a workspace record enters the dict comprehension of
`restore_state`: its name when truthy (`if ws.get("name")`), else none. -/
def nameKey (r : WorkspaceRecord) : Option String :=
  match r.name with
  | some s => if s = "" then none else some s
  | none => none

/-- `workspace_targets = {ws["name"]: ws.get("output") for ws in ... if ws.get("name")}`:
the dict comprehension, with Python dict insertion-order semantics. -/
def workspaceTargets (ws : List WorkspaceRecord) : List (String × Option String) :=
  ws.foldl
    (fun d r =>
      match nameKey r with
      | some k => insertDict d k r.output
      | none => d)
    []

/-- Phase 1 of `restore_state`: for each dict entry, skip it when its output
is truthy and not among the available output names, otherwise issue
`workspace "<name>"` and, when the output is truthy, `move workspace to
output "<output>"`.  `avail` is the set of `out.get("name")` values of the
current outputs, hence a collection of optional strings. -/
def phase1Cmds (targets : List (String × Option String)) (avail : List (Option String)) :
    List Cmd :=
  targets.flatMap fun p =>
    if truthyStr p.2 ∧ p.2 ∉ avail then []
    else Cmd.workspace p.1 :: (if truthyStr p.2 then [Cmd.moveToOutput (p.2.getD "")] else [])

/-- Phase 2 of `restore_state`: for each window record, skip it when its
command or workspace is falsy (`if not cmd or not ws`), otherwise issue
`workspace "<ws>"` then `exec -- <cmd>`. -/
def phase2Cmds (wins : List WindowRecord) : List Cmd :=
  wins.flatMap fun w =>
    if truthyStr w.cmd ∧ truthyStr w.workspace then
      [Cmd.workspace (w.workspace.getD ""), Cmd.exec (w.cmd.getD "")]
    else []

/-- The full command sequence `restore_state` attempts to issue, in order:
phase 1 over the deduplicated workspace targets, then phase 2 over the
window records. -/
def restorePlan (snap : Snapshot) (avail : List (Option String)) : List Cmd :=
  phase1Cmds (workspaceTargets snap.workspaces) avail ++ phase2Cmds snap.windows

/-- Issue commands one by one against the oracle `ok`; a failing
`subprocess.check_call` raises, so the failing command is the last one
issued and the rest are abandoned, with `false` reported (the uncaught
exception). -/
def runCmds (ok : Cmd → Bool) : List Cmd → List Cmd × Bool
  | [] => ([], true)
  | c :: rest =>
    if ok c then
      let r := runCmds ok rest
      (c :: r.1, r.2)
    else ([c], false)

/-- `restore_state` on a parsed snapshot: the list of commands actually
issued and whether the whole restore completed without an uncaught
compositor-command failure. -/
def restore_state (snap : Snapshot) (avail : List (Option String)) (ok : Cmd → Bool) :
    List Cmd × Bool :=
  runCmds ok (restorePlan snap avail)

/-- Claim C4 counterexample: a window record whose command is the empty
string and whose workspace is `"1"` — both fields non-null, so the claim
says it is processed (a switch and an exec command issued) — yet phase 2
issues nothing, because the code skips on Python falsiness (`if not cmd or
not ws`), and `""` is falsy. -/
theorem phase2_empty_cmd_cex :
    phase2Cmds [{ workspace := some "1", output := some "DP-1", pid := some 5,
                  app_id := none, wm_class := none, title := none,
                  cmd := some "", marks := [] }] = []
    ∧ (some "" : Option String) ≠ none ∧ (some "1" : Option String) ≠ none := by
  decide

/-- Claim C4 as amended: phase 2 skips exactly the window records whose
command is null or empty or whose workspace is null or empty; every other
record is processed in snapshot order, contributing a switch-to-workspace
command followed by an exec command carrying its command line.  Formally
the issued commands are the flattening of the truthiness-filtered record
list. -/
theorem phase2_filter_characterization (wins : List WindowRecord) :
    phase2Cmds wins
      = (wins.filter (fun w => truthyStr w.cmd && truthyStr w.workspace)).flatMap
          (fun w => [Cmd.workspace (w.workspace.getD ""), Cmd.exec (w.cmd.getD "")]) := by
  induction wins with
  | nil => rfl
  | cons w ws ih =>
    rw [phase2Cmds, List.flatMap_cons, List.filter_cons]
    by_cases h : truthyStr w.cmd ∧ truthyStr w.workspace
    · have hb : (truthyStr w.cmd && truthyStr w.workspace) = true := by
        simp [h.1, h.2]
      rw [if_pos h, hb]
      simp only [if_pos trivial, List.flatMap_cons]
      rw [← ih]
      rfl
    · have hb : (truthyStr w.cmd && truthyStr w.workspace) = false := by
        rcases not_and_or.mp h with h1 | h1 <;> simp [h1]
      rw [if_neg h, hb]
      simp only [Bool.false_eq_true, if_false]
      rw [← ih]
      rfl

lemma runCmds_all_ok (ok : Cmd → Bool) (l : List Cmd) (h : l.all ok) :
    runCmds ok l = (l, true) := by
  induction l with
  | nil => rfl
  | cons c rest ih =>
    rw [List.all_cons, Bool.and_eq_true] at h
    rw [runCmds, if_pos h.1, ih h.2]

lemma runCmds_first_fail (ok : Cmd → Bool) (l : List Cmd) (h : ¬ l.all ok) :
    runCmds ok l = (l.takeWhile ok ++ (l.dropWhile ok).take 1, false) := by
  induction l with
  | nil => simp at h
  | cons c rest ih =>
    rw [List.all_cons, Bool.and_eq_true] at h
    by_cases hc : ok c
    · have hrest : ¬ rest.all ok := fun hr => h ⟨hc, hr⟩
      rw [runCmds, if_pos hc, ih hrest, List.takeWhile_cons_of_pos hc,
        List.dropWhile_cons_of_pos hc]
      rfl
    · rw [runCmds, if_neg hc, List.takeWhile_cons_of_neg hc,
        List.dropWhile_cons_of_neg hc]
      rfl

/-- Claim C5: if every attempted compositor command succeeds, the whole
plan is issued and the restore reports success; if any attempted command
fails, the restore aborts at the first failure — the issued commands are
the successful prefix plus the single failing command, nothing after it in
either phase is issued, and the failure propagates (`false`). -/
theorem restore_state_abort_on_failure (snap : Snapshot) (avail : List (Option String))
    (ok : Cmd → Bool) :
    ((restorePlan snap avail).all ok →
        restore_state snap avail ok = (restorePlan snap avail, true))
    ∧ (¬ (restorePlan snap avail).all ok →
        restore_state snap avail ok
          = ((restorePlan snap avail).takeWhile ok
              ++ ((restorePlan snap avail).dropWhile ok).take 1, false)) :=
  ⟨fun h => runCmds_all_ok ok (restorePlan snap avail) h,
   fun h => runCmds_first_fail ok (restorePlan snap avail) h⟩

/-- Witness for C5: a snapshot with two named workspaces and no windows,
where the very first command (`workspace "1"`) fails.  The restore issues
only that failing command — the second workspace's command is never issued —
and reports failure. -/
theorem restore_state_abort_on_failure_witness :
    restore_state
        { workspaces := [{ name := some "1", output := none, focused := none },
                         { name := some "2", output := none, focused := none }],
          windows := [] }
        []
        (fun c => !(c == Cmd.workspace "1"))
      = ([Cmd.workspace "1"], false) := by
  have h := (restore_state_abort_on_failure
      { workspaces := [{ name := some "1", output := none, focused := none },
                       { name := some "2", output := none, focused := none }],
        windows := [] }
      []
      (fun c => !(c == Cmd.workspace "1"))).2 (by decide)
  rw [h]
  decide

/-- First-occurrence deduplication of a list of names (the key order of a
Python dict built by successive insertion). -/
def dedupFirst (l : List String) : List String :=
  l.foldl (fun acc x => if x ∈ acc then acc else acc ++ [x]) []

/-- The output recorded by the last workspace record whose truthy name is
`n`, `none` when there is no such record. -/
def lastOutputFor (ws : List WorkspaceRecord) (n : String) : Option String :=
  match (ws.filter (fun r => nameKey r = some n)).getLast? with
  | some r => r.output
  | none => none

/-- Specification-side description of the dict comprehension of
`restore_state`: one target per distinct truthy name, in order of first
occurrence, valued by the output of the last record bearing that name. -/
def specTargets (ws : List WorkspaceRecord) : List (String × Option String) :=
  (dedupFirst (ws.filterMap nameKey)).map (fun n => (n, lastOutputFor ws n))

lemma dedupFirst_snoc (l : List String) (x : String) :
    dedupFirst (l ++ [x]) = if x ∈ dedupFirst l then dedupFirst l else dedupFirst l ++ [x] := by
  unfold dedupFirst
  rw [List.foldl_append]
  rfl

lemma mem_dedupFirst (l : List String) (x : String) : x ∈ dedupFirst l ↔ x ∈ l := by
  induction l using List.reverseRecOn with
  | nil => simp [dedupFirst]
  | append_singleton l y ih =>
    rw [dedupFirst_snoc]
    by_cases hy : y ∈ dedupFirst l
    · rw [if_pos hy]
      simp only [List.mem_append, List.mem_singleton]
      constructor
      · intro h; exact Or.inl (ih.mp h)
      · rintro (h | rfl)
        · exact ih.mpr h
        · exact hy
    · rw [if_neg hy]
      simp [ih]

lemma nodup_dedupFirst (l : List String) : (dedupFirst l).Nodup := by
  induction l using List.reverseRecOn with
  | nil => simp [dedupFirst]
  | append_singleton l y ih =>
    rw [dedupFirst_snoc]
    by_cases hy : y ∈ dedupFirst l
    · rw [if_pos hy]; exact ih
    · rw [if_neg hy]; simp [List.nodup_append, ih, hy]

lemma workspaceTargets_snoc_none (ws : List WorkspaceRecord) (r : WorkspaceRecord)
    (h : nameKey r = none) :
    workspaceTargets (ws ++ [r]) = workspaceTargets ws := by
  unfold workspaceTargets
  rw [List.foldl_append]
  simp only [List.foldl_cons, List.foldl_nil]
  rw [h]

lemma workspaceTargets_snoc_some (ws : List WorkspaceRecord) (r : WorkspaceRecord)
    (k : String) (h : nameKey r = some k) :
    workspaceTargets (ws ++ [r]) = insertDict (workspaceTargets ws) k r.output := by
  unfold workspaceTargets
  rw [List.foldl_append]
  simp only [List.foldl_cons, List.foldl_nil]
  rw [h]

lemma lastOutputFor_snoc (ws : List WorkspaceRecord) (r : WorkspaceRecord) (n : String) :
    lastOutputFor (ws ++ [r]) n
      = if nameKey r = some n then r.output else lastOutputFor ws n := by
  unfold lastOutputFor
  rw [List.filter_append]
  by_cases h : nameKey r = some n
  · rw [if_pos h]
    have : [r].filter (fun r => nameKey r = some n) = [r] := by simp [List.filter, h]
    rw [this, List.getLast?_concat]
  · rw [if_neg h]
    have : [r].filter (fun r => nameKey r = some n) = [] := by simp [List.filter, h]
    rw [this, List.append_nil]

lemma specTargets_any_key (ws : List WorkspaceRecord) (k : String) :
    (specTargets ws).any (fun p => p.1 = k) = true
      ↔ k ∈ dedupFirst (ws.filterMap nameKey) := by
  unfold specTargets
  simp [List.any_eq_true]

/-- The Python dict comprehension equals its specification: one entry per
distinct truthy name in first-occurrence order, holding the last recorded
output for that name. -/
theorem workspaceTargets_eq_specTargets (ws : List WorkspaceRecord) :
    workspaceTargets ws = specTargets ws := by
  induction ws using List.reverseRecOn with
  | nil => rfl
  | append_singleton ws r ih =>
    cases h : nameKey r with
    | none =>
      rw [workspaceTargets_snoc_none ws r h, ih]
      unfold specTargets
      rw [List.filterMap_append]
      have hfm : [r].filterMap nameKey = [] := by simp [List.filterMap, h]
      rw [hfm, List.append_nil]
      apply List.map_congr_left
      intro n _
      rw [lastOutputFor_snoc]
      have hne : ¬ nameKey r = some n := by rw [h]; simp
      rw [if_neg hne]
    | some k =>
      rw [workspaceTargets_snoc_some ws r k h, ih]
      by_cases hk : k ∈ dedupFirst (ws.filterMap nameKey)
      · have hany : (specTargets ws).any (fun p => p.1 = k) = true :=
          (specTargets_any_key ws k).mpr hk
        unfold insertDict
        rw [if_pos hany]
        unfold specTargets
        rw [List.filterMap_append]
        have hfm : [r].filterMap nameKey = [k] := by simp [List.filterMap, h]
        rw [hfm, dedupFirst_snoc, if_pos hk, List.map_map]
        apply List.map_congr_left
        intro n _
        by_cases hn : n = k
        · subst hn
          rw [lastOutputFor_snoc, if_pos h]
          simp [Function.comp]
        · have hn1 : ¬ ((n, lastOutputFor ws n).1 = k) := by simpa using hn
          have hn2 : ¬ (nameKey r = some n) := by
            rw [h]
            simpa using fun he => hn he.symm
          simp only [Function.comp]
          rw [if_neg hn1, lastOutputFor_snoc, if_neg hn2]
      · have hany : ¬ (specTargets ws).any (fun p => p.1 = k) = true := by
          rw [specTargets_any_key]
          exact hk
        unfold insertDict
        rw [if_neg hany]
        unfold specTargets
        rw [List.filterMap_append]
        have hfm : [r].filterMap nameKey = [k] := by simp [List.filterMap, h]
        rw [hfm, dedupFirst_snoc, if_neg hk, List.map_append]
        congr 1
        · apply List.map_congr_left
          intro n hn
          have hnk : ¬ n = k := fun he => hk (he ▸ hn)
          have hn2 : ¬ (nameKey r = some n) := by
            rw [h]
            simpa using fun he => hnk he.symm
          rw [lastOutputFor_snoc, if_neg hn2]
        · simp only [List.map_cons, List.map_nil]
          rw [lastOutputFor_snoc, if_pos h]

/-- The claim's phase-1 skip condition, worded from the claim: a workspace
record is skipped exactly when its recorded output is non-null and absent
from the available output set. -/
def skippedPerClaim (r : WorkspaceRecord) (avail : List (Option String)) : Bool :=
  r.output.isSome && decide (r.output ∉ avail)

/-- Claim C3 counterexample: a snapshot holding two workspace records that
share the name `"1"`, both recording outputs present in the available set.
Per the claim neither is skipped, so both must be processed and a
`move workspace to output "DP-1"` command issued for the first; but the
dict comprehension keeps only the last record per name, so phase 1 issues
exactly one switch and one move — to `"DP-2"` — and no move to `"DP-1"`. -/
theorem phase1_duplicate_name_cex :
    skippedPerClaim { name := some "1", output := some "DP-1", focused := some false }
        [some "DP-1", some "DP-2"] = false
    ∧ Cmd.moveToOutput "DP-1" ∉
        phase1Cmds (workspaceTargets
            [{ name := some "1", output := some "DP-1", focused := some false },
             { name := some "1", output := some "DP-2", focused := some false }])
          [some "DP-1", some "DP-2"]
    ∧ phase1Cmds (workspaceTargets
            [{ name := some "1", output := some "DP-1", focused := some false },
             { name := some "1", output := some "DP-2", focused := some false }])
          [some "DP-1", some "DP-2"]
        = [Cmd.workspace "1", Cmd.moveToOutput "DP-2"] := by
  decide

/-- Claim C3 as amended: phase 1 iterates not over the raw workspace
records but over one target per distinct truthy (non-null, nonempty) name,
in first-occurrence order, holding the output of the last record with that
name; a target is skipped exactly when its output is truthy and not among
the available output names, and every other target yields a
switch-to-workspace command followed, when its output is truthy, by a
move-to-output command. -/
theorem phase1_targets_characterization (ws : List WorkspaceRecord)
    (avail : List (Option String)) :
    phase1Cmds (workspaceTargets ws) avail
      = (specTargets ws).flatMap (fun p =>
          if truthyStr p.2 ∧ p.2 ∉ avail then []
          else Cmd.workspace p.1
            :: (if truthyStr p.2 then [Cmd.moveToOutput (p.2.getD "")] else [])) := by
  rw [workspaceTargets_eq_specTargets]
  rfl

lemma countP_phase1_zero (targets : List (String × Option String))
    (avail : List (Option String)) (n : String) (h : ∀ p ∈ targets, ¬ p.1 = n) :
    (phase1Cmds targets avail).countP (fun c => c = Cmd.workspace n) = 0 := by
  induction targets with
  | nil => rfl
  | cons p ps ih =>
    rw [phase1Cmds, List.flatMap_cons, List.countP_append]
    have hp : ¬ p.1 = n := h p (List.mem_cons_self p ps)
    have hps := ih (fun q hq => h q (List.mem_cons_of_mem p hq))
    rw [phase1Cmds] at hps
    rw [hps]
    by_cases hskip : truthyStr p.2 ∧ p.2 ∉ avail
    · rw [if_pos hskip]
      rfl
    · rw [if_neg hskip]
      by_cases hmv : truthyStr p.2 = true <;> simp [hmv, List.countP_cons, hp]

lemma countP_phase1_le_one (targets : List (String × Option String))
    (avail : List (Option String)) (n : String) (h : (targets.map Prod.fst).Nodup) :
    (phase1Cmds targets avail).countP (fun c => c = Cmd.workspace n) ≤ 1 := by
  induction targets with
  | nil => exact Nat.zero_le 1
  | cons p ps ih =>
    rw [List.map_cons, List.nodup_cons] at h
    rw [phase1Cmds, List.flatMap_cons, List.countP_append]
    have hrest : (phase1Cmds ps avail).countP (fun c => c = Cmd.workspace n) ≤ 1 :=
      ih h.2
    rw [phase1Cmds] at hrest
    by_cases hp : p.1 = n
    · have hzero : (ps.flatMap fun q =>
          if truthyStr q.2 ∧ q.2 ∉ avail then []
          else Cmd.workspace q.1
            :: (if truthyStr q.2 then [Cmd.moveToOutput (q.2.getD "")] else [])).countP
            (fun c => c = Cmd.workspace n) = 0 := by
        have := countP_phase1_zero ps avail n
          (fun q hq hqn => h.1 (by rw [← hp] at hqn; exact hqn ▸ List.mem_map_of_mem Prod.fst hq))
        rw [phase1Cmds] at this
        exact this
      rw [hzero, Nat.add_zero]
      by_cases hskip : truthyStr p.2 ∧ p.2 ∉ avail
      · rw [if_pos hskip]
        exact Nat.zero_le 1
      · rw [if_neg hskip]
        by_cases hmv : truthyStr p.2 = true <;> simp [hmv, List.countP_cons, hp]
    · have hchunk : (if truthyStr p.2 ∧ p.2 ∉ avail then []
          else Cmd.workspace p.1
            :: (if truthyStr p.2 then [Cmd.moveToOutput (p.2.getD "")] else [])).countP
            (fun c => c = Cmd.workspace n) = 0 := by
        by_cases hskip : truthyStr p.2 ∧ p.2 ∉ avail
        · rw [if_pos hskip]
          rfl
        · rw [if_neg hskip]
          by_cases hmv : truthyStr p.2 = true <;> simp [hmv, List.countP_cons, hp]
      rw [hchunk, Nat.zero_add]
      exact hrest

lemma lookup_map_pair (l : List String) (f : String → Option String) (n : String) :
    List.lookup n (l.map (fun m => (m, f m))) = if n ∈ l then some (f n) else none := by
  induction l with
  | nil => simp
  | cons m ms ih =>
    rw [List.map_cons, List.lookup_cons]
    by_cases hb : n = m
    · subst hb
      simp
    · have hbe : (n == m) = false := by simpa using hb
      rw [hbe]
      simp only [List.mem_cons]
      rw [ih]
      by_cases hm : n ∈ ms <;> simp [hm, hb]

/-- Claim C9: when several workspace records share a name, phase 1 issues a
switch command for that name at most once, and the dict entry driving the
issued commands holds the output recorded by the last record with that
name (earlier same-named records are superseded). -/
theorem phase1_last_wins (ws : List WorkspaceRecord) (avail : List (Option String))
    (n : String) :
    (phase1Cmds (workspaceTargets ws) avail).countP (fun c => c = Cmd.workspace n) ≤ 1
    ∧ List.lookup n (workspaceTargets ws)
        = ((ws.filter (fun r => nameKey r = some n)).getLast?).map (fun r => r.output) := by
  constructor
  · rw [workspaceTargets_eq_specTargets]
    apply countP_phase1_le_one
    unfold specTargets
    rw [List.map_map]
    have hcomp : (Prod.fst ∘ fun m => (m, lastOutputFor ws m)) = fun m => m := by
      funext m
      rfl
    rw [hcomp]
    have hid : (dedupFirst (ws.filterMap nameKey)).map (fun m => m)
        = dedupFirst (ws.filterMap nameKey) := List.map_id _
    rw [hid]
    exact nodup_dedupFirst _
  · rw [workspaceTargets_eq_specTargets]
    unfold specTargets
    rw [lookup_map_pair]
    by_cases hmem : n ∈ dedupFirst (ws.filterMap nameKey)
    · rw [if_pos hmem]
      rw [mem_dedupFirst, List.mem_filterMap] at hmem
      cases hl : (ws.filter (fun r => nameKey r = some n)).getLast? with
      | none =>
        rw [List.getLast?_eq_none_iff, List.filter_eq_nil_iff] at hl
        obtain ⟨r, hr, hrn⟩ := hmem
        exact absurd (by simpa using hrn) (hl r hr)
      | some r =>
        unfold lastOutputFor
        rw [hl]
        rfl
    · rw [if_neg hmem]
      rw [mem_dedupFirst, List.mem_filterMap] at hmem
      have hfil : ws.filter (fun r => nameKey r = some n) = [] := by
        rw [List.filter_eq_nil_iff]
        intro r hr hrn
        exact hmem ⟨r, hr, by simpa using hrn⟩
      rw [hfil]
      rfl

lemma nameKey_eq_none_of_falsy (r : WorkspaceRecord) (h : truthyStr r.name = false) :
    nameKey r = none := by
  unfold nameKey
  unfold truthyStr at h
  cases hn : r.name with
  | none => rfl
  | some s =>
    rw [hn] at h
    simp only [decide_eq_false_iff_not, not_not] at h
    simp [h]

lemma nameKey_eq_some_of_truthy (r : WorkspaceRecord) (h : truthyStr r.name = true) :
    nameKey r = some (r.name.getD "") := by
  unfold nameKey
  unfold truthyStr at h
  cases hn : r.name with
  | none => rw [hn] at h; exact absurd h (by simp)
  | some s =>
    rw [hn] at h
    simp only [decide_eq_true_eq] at h
    simp [h]

lemma workspaceTargets_filter_truthy (ws : List WorkspaceRecord) :
    workspaceTargets (ws.filter (fun r => truthyStr r.name)) = workspaceTargets ws := by
  induction ws using List.reverseRecOn with
  | nil => rfl
  | append_singleton ws r ih =>
    rw [List.filter_append]
    cases ht : truthyStr r.name with
    | false =>
      have hnk := nameKey_eq_none_of_falsy r ht
      have hfil : [r].filter (fun r => truthyStr r.name) = [] := by simp [List.filter, ht]
      rw [hfil, List.append_nil, ih, workspaceTargets_snoc_none ws r hnk]
    | true =>
      have hnk := nameKey_eq_some_of_truthy r ht
      have hfil : [r].filter (fun r => truthyStr r.name) = [r] := by simp [List.filter, ht]
      rw [hfil, workspaceTargets_snoc_some _ r _ hnk,
        workspaceTargets_snoc_some ws r _ hnk, ih]

/-- Claim C7 counterexample: saving with a live workspace list holding one
unnamed workspace.  The claim says every unnamed workspace is dropped from
the persisted snapshot's workspaces sequence, but the projection in
`save_state` has no filter: the unnamed record is persisted. -/
theorem save_workspaces_unnamed_kept_cex :
    save_workspaces [{ name := none, output := some "DP-1", focused := some true }]
      = [{ name := none, output := some "DP-1", focused := some true }]
    ∧ ({ name := none, output := some "DP-1", focused := some true } : WorkspaceRecord).name
        = none := by
  decide

/-- Claim C7 as amended: `save_state` projects every entry of the live
workspace list onto (name, output, focused) and keeps them all — unnamed
workspaces are not dropped from the persisted sequence.  They are inert
instead: dropping the entries with falsy names before saving leaves the
restore-phase-1 workspace targets unchanged. -/
theorem save_workspaces_length_and_inert (l : List WsRaw) :
    (save_workspaces l).length = l.length
    ∧ workspaceTargets (save_workspaces l)
        = workspaceTargets (save_workspaces (l.filter (fun w => truthyStr w.name))) := by
  constructor
  · unfold save_workspaces
    exact List.length_map l _
  · unfold save_workspaces
    have hswap : (l.filter (fun w => truthyStr w.name)).map
          (fun w => ({ name := w.name, output := w.output, focused := w.focused }
            : WorkspaceRecord))
        = (l.map (fun w => ({ name := w.name, output := w.output, focused := w.focused }
            : WorkspaceRecord))).filter (fun r => truthyStr r.name) := by
      rw [List.filter_map]
      rfl
    rw [hswap, workspaceTargets_filter_truthy]

/-- The workspace-to-output assignments realized by a command sequence: a
switch-to-workspace command immediately followed by a move-to-output
command assigns that workspace to that output. -/
def assignmentsOf : List Cmd → List (String × String)
  | [] => []
  | Cmd.workspace n :: Cmd.moveToOutput o :: rest => (n, o) :: assignmentsOf rest
  | _ :: rest => assignmentsOf rest

lemma assignmentsOf_flatMap {α : Type} (f g : α → String) (l : List α) :
    assignmentsOf (l.flatMap (fun w => [Cmd.workspace (f w), Cmd.moveToOutput (g w)]))
      = l.map (fun w => (f w, g w)) := by
  induction l with
  | nil => rfl
  | cons w ws ih =>
    rw [List.flatMap_cons, List.cons_append, List.cons_append, List.nil_append]
    rw [assignmentsOf, ih, List.map_cons]

lemma workspaceTargets_of_nodup (ws : List WorkspaceRecord)
    (ht : ∀ r ∈ ws, truthyStr r.name = true)
    (hnd : (ws.map (fun r => r.name.getD "")).Nodup) :
    workspaceTargets ws = ws.map (fun r => (r.name.getD "", r.output)) := by
  induction ws using List.reverseRecOn with
  | nil => rfl
  | append_singleton ws r ih =>
    rw [List.map_append, List.nodup_append] at hnd
    have htr : truthyStr r.name = true := ht r (by simp)
    have ht1 : ∀ q ∈ ws, truthyStr q.name = true :=
      fun q hq => ht q (List.mem_append_left _ hq)
    rw [workspaceTargets_snoc_some ws r _ (nameKey_eq_some_of_truthy r htr),
      ih ht1 hnd.1]
    have hkey : ¬ ((ws.map (fun q => (q.name.getD "", q.output))).any
        (fun p => p.1 = r.name.getD "")) = true := by
      intro hany
      rw [List.any_eq_true] at hany
      obtain ⟨p, hp, hpk⟩ := hany
      obtain ⟨q, hq, rfl⟩ := List.mem_map.mp hp
      simp only [decide_eq_true_eq] at hpk
      have : r.name.getD "" ∈ ws.map (fun q => q.name.getD "") := by
        rw [← hpk]
        exact List.mem_map_of_mem _ hq
      exact hnd.2.2 this (by simp)
    unfold insertDict
    rw [if_neg hkey, List.map_append]
    rfl

lemma phase1_no_skip (targets : List (String × Option String))
    (avail : List (Option String))
    (h : ∀ p ∈ targets, truthyStr p.2 = true ∧ p.2 ∈ avail) :
    phase1Cmds targets avail
      = targets.flatMap (fun p => [Cmd.workspace p.1, Cmd.moveToOutput (p.2.getD "")]) := by
  induction targets with
  | nil => rfl
  | cons p ps ih =>
    have hp := h p (List.mem_cons_self p ps)
    have hps := ih (fun q hq => h q (List.mem_cons_of_mem p hq))
    rw [phase1Cmds] at hps
    have hskip : ¬ (truthyStr p.2 = true ∧ p.2 ∉ avail) := fun hc => hc.2 hp.2
    rw [phase1Cmds, List.flatMap_cons, List.flatMap_cons, hps, if_neg hskip, if_pos hp.1]

/-- Claim C8: saving a session whose live workspaces all have truthy
distinct names and truthy outputs among the available set, then restoring
against the same output set, issues placement commands whose realized
workspace-to-output assignments are exactly the captured ones, in order —
nothing is skipped and placement reproduces the capture. -/
theorem save_restore_roundtrip (cl : Nat → Option String) (tree : SceneNode)
    (l : List WsRaw) (avail : List (Option String))
    (hgood : ∀ w ∈ l, truthyStr w.name = true ∧ truthyStr w.output = true ∧ w.output ∈ avail)
    (hnodup : (l.map (fun w => w.name.getD "")).Nodup) :
    assignmentsOf (phase1Cmds (workspaceTargets (save_state cl tree l).workspaces) avail)
      = l.map (fun w => (w.name.getD "", w.output.getD "")) := by
  have hws : (save_state cl tree l).workspaces = save_workspaces l := rfl
  rw [hws]
  unfold save_workspaces
  have ht : ∀ r ∈ l.map (fun w =>
      ({ name := w.name, output := w.output, focused := w.focused } : WorkspaceRecord)),
      truthyStr r.name = true := by
    intro r hr
    obtain ⟨w, hw, rfl⟩ := List.mem_map.mp hr
    exact (hgood w hw).1
  have hnd : ((l.map (fun w =>
      ({ name := w.name, output := w.output, focused := w.focused } : WorkspaceRecord))).map
        (fun r => r.name.getD "")).Nodup := by
    rw [List.map_map]
    exact hnodup
  rw [workspaceTargets_of_nodup _ ht hnd, List.map_map]
  have htar : ∀ p ∈ l.map ((fun r => ((r : WorkspaceRecord).name.getD "", r.output)) ∘
      (fun w => ({ name := w.name, output := w.output, focused := w.focused }
        : WorkspaceRecord))),
      truthyStr p.2 = true ∧ p.2 ∈ avail := by
    intro p hp
    obtain ⟨w, hw, rfl⟩ := List.mem_map.mp hp
    exact ⟨(hgood w hw).2.1, (hgood w hw).2.2⟩
  rw [phase1_no_skip _ _ htar, List.flatMap_map]
  exact assignmentsOf_flatMap (fun w => w.name.getD "") (fun w => w.output.getD "") l

/-- Witness for C8: one live workspace `"1"` on output `"DP-1"`, restored
with `"DP-1"` available: the placement assignment `("1", "DP-1")` is
reproduced. -/
theorem save_restore_roundtrip_witness :
    assignmentsOf (phase1Cmds (workspaceTargets
        (save_state (fun _ => none) (.mk none none none none none none [] [])
          [{ name := some "1", output := some "DP-1", focused := some true }]).workspaces)
      [some "DP-1"])
      = [("1", "DP-1")] := by
  have h := save_restore_roundtrip (fun _ => none) (.mk none none none none none none [] [])
      [{ name := some "1", output := some "DP-1", focused := some true }] [some "DP-1"]
      (by decide) (by decide)
  rw [h]
  rfl
